import Mathlib

/-!
Shallow embedding of the kintai-be attendance backend (`src/index.ts`).

Timestamps are modelled as a calendar day index (days since an arbitrary
epoch, in the server's local time zone, which the model fixes as the single
uniform frame) together with the milliseconds elapsed since local midnight.
JavaScript `Date` arithmetic (`setDate(getDate() - 1)`, `setHours(h,0,0,0)`,
`getTime`, `new Date(ms)`) then becomes plain integer arithmetic on this
representation.  A real `Date` always satisfies `msOfDay < 86400000`; the
theorems that need this carry it as an explicit hypothesis (`WFt`).
-/

namespace Kintai

/-- A wall-clock instant: calendar day index plus milliseconds since local
midnight.  Mirrors the information `index.ts` reads from a JS `Date` via
`getHours`, `getDate`, `getTime`. -/
structure DateTime where
  day : Int
  msOfDay : Nat
  deriving DecidableEq, Repr

/-- `Date.prototype.getTime()`: epoch milliseconds. -/
def toMs (t : DateTime) : Int := t.day * 86400000 + (t.msOfDay : Int)

/-- `new Date(ms)`: rebuild an instant from epoch milliseconds. -/
def ofMs (ms : Int) : DateTime :=
  ⟨Int.fdiv ms 86400000, (Int.emod ms 86400000).toNat⟩

/-- `Date.prototype.getHours()`. -/
def hourOf (t : DateTime) : Nat := t.msOfDay / 3600000

/-- A well-formed instant: the time-of-day component is below 24h, as it is
for every real JS `Date`. -/
def WFt (t : DateTime) : Prop := t.msOfDay < 86400000

instance (t : DateTime) : Decidable (WFt t) := by
  unfold WFt; infer_instance

/-- `getLogicalDate` from `index.ts`: if the local hour is strictly before
`resetHour` step the date back one calendar day, then strip the time of day
(`setHours(0,0,0,0)`). -/
def getLogicalDate (t : DateTime) (resetHour : Nat) : DateTime :=
  if hourOf t < resetHour then ⟨t.day - 1, 0⟩ else ⟨t.day, 0⟩

/-- The `YYYY-MM-DD` key of a logical date
(`logicalDate.toISOString().split('T')[0]`), modelled as the day index. -/
def dayKey (t : DateTime) (resetHour : Nat) : Int :=
  (getLogicalDate t resetHour).day

/-- `date.setHours(resetHour, 0, 0, 0)`: same calendar day, time of day set
to `resetHour:00:00.000`. -/
def setHoursR (t : DateTime) (r : Nat) : DateTime := ⟨t.day, r * 3600000⟩

/-- The `type` column of an `AttendanceLog` row. -/
inductive LogType where
  | work_start
  | work_end
  | break_start
  | break_end
  deriving DecidableEq, Repr

/-- One `AttendanceLog` row (for a single user). -/
structure LogEntry where
  type : LogType
  timestamp : DateTime
  deriving DecidableEq, Repr

/-- The `status` column of a `User` row, as a closed variant. -/
inductive Status where
  | unregistered
  | working
  | on_break
  deriving DecidableEq, Repr

/-- One user's persisted state: current status plus the attendance log in
insertion (creation) order. -/
structure UserState where
  status : Status
  log : List LogEntry
  deriving DecidableEq, Repr

/-- Pick the later of two log entries by timestamp; on a timestamp tie the
second (later-inserted) entry wins. -/
def laterLog (a b : LogEntry) : LogEntry :=
  if toMs a.timestamp ≤ toMs b.timestamp then b else a

/-- `prisma.attendanceLog.findFirst({ orderBy: { timestamp: 'desc' } })`:
the chronologically last entry (ties resolved toward the later-inserted
row; the database leaves tie order unspecified). -/
def lastLog : List LogEntry → Option LogEntry
  | [] => none
  | e :: rest => some (rest.foldl laterLog e)

/-- `checkAndResetStateIfNewDay` from `index.ts`: if the logical day of the
chronologically last log entry differs from the logical day of `now`, then
either append a synthetic `work_start` at `now` with its time of day set to
`resetHour:00:00` and switch the status to `working` (when the status is
`working` or `on_break`), or reset the status to `unregistered`. -/
def reconcile (st : UserState) (now : DateTime) (r : Nat) : UserState :=
  match lastLog st.log with
  | none => st
  | some e =>
    if getLogicalDate e.timestamp r = getLogicalDate now r then st
    else if st.status = .working ∨ st.status = .on_break then
      ⟨.working, st.log ++ [⟨.work_start, setHoursR now r⟩]⟩
    else if st.status ≠ .unregistered then
      { st with status := .unregistered }
    else st

/-- The state-machine part of `POST /stamp` (after reconciliation): cycle
`unregistered → working → on_break → working`, appending the matching log
entry stamped `now`.  Returns the new state and the reported new status. -/
def stampCore (st : UserState) (now : DateTime) : UserState × Status :=
  match st.status with
  | .unregistered => (⟨.working, st.log ++ [⟨.work_start, now⟩]⟩, .working)
  | .working => (⟨.on_break, st.log ++ [⟨.break_start, now⟩]⟩, .on_break)
  | .on_break => (⟨.working, st.log ++ [⟨.break_end, now⟩]⟩, .working)

/-- `POST /stamp`: reconcile, then apply the transition table. -/
def stampHandler (st : UserState) (now : DateTime) (r : Nat) :
    UserState × Status :=
  stampCore (reconcile st now r) now

/-- Outcome reported by `POST /clock_out`. -/
inductive ClockOutResponse where
  | clockedOut
  | errNotWorking
  deriving DecidableEq, Repr

/-- The state-machine part of `POST /clock_out` (after reconciliation):
from `working` or `on_break`, set status `unregistered` and append a
`work_end` at `now`; from `unregistered`, report an error and change
nothing. -/
def clockOutCore (st : UserState) (now : DateTime) :
    UserState × ClockOutResponse :=
  if st.status = .working ∨ st.status = .on_break then
    (⟨.unregistered, st.log ++ [⟨.work_end, now⟩]⟩, .clockedOut)
  else
    (st, .errNotWorking)

/-- `POST /clock_out`: reconcile, then clock out. -/
def clockOutHandler (st : UserState) (now : DateTime) (r : Nat) :
    UserState × ClockOutResponse :=
  clockOutCore (reconcile st now r) now

/-- `GET /status`: reconcile, then report the (persisted) status and log. -/
def statusHandler (st : UserState) (now : DateTime) (r : Nat) :
    UserState × (Status × List LogEntry) :=
  let st1 := reconcile st now r
  (st1, (st1.status, st1.log))

/-!
JS plain objects used as maps (`dailyTotals`, `weeklyMap`, `monthlyMap`) are
modelled as association lists in key-insertion order, which is the
enumeration order `Object.entries` delivers for these string keys.
-/

section KeyMap

variable {κ : Type} [DecidableEq κ]

/-- `k in m` (the key is present, whatever its value). -/
def keyMem (m : List (κ × Int)) (k : κ) : Bool :=
  m.any fun p => decide (p.1 = k)

/-- `if (!m[k]) m[k] = 0`: create the key with value `0` when absent.
(When the key is present the JS code either leaves it alone or overwrites a
falsy `0` with `0`, which is the identity.) -/
def initKey (m : List (κ × Int)) (k : κ) : List (κ × Int) :=
  if keyMem m k then m else m ++ [(k, 0)]

/-- `m[k] += v` for a key already present. -/
def addKey (m : List (κ × Int)) (k : κ) (v : Int) : List (κ × Int) :=
  m.map fun p => if p.1 = k then (p.1, p.2 + v) else p

/-- `if (!m[k]) m[k] = 0; m[k] += v` as a single operation. -/
def bumpKey (m : List (κ × Int)) (k : κ) (v : Int) : List (κ × Int) :=
  if keyMem m k then addKey m k v else m ++ [(k, v)]

/-- `m[k] || 0`: look the key up, defaulting to `0`. -/
def lookupKey (m : List (κ × Int)) (k : κ) : Int :=
  match m.find? (fun p => decide (p.1 = k)) with
  | some p => p.2
  | none => 0

/-- The keys of the map, in insertion order. -/
def keysOf (m : List (κ × Int)) : List κ := m.map Prod.fst

/-- Sum of all values of the map. -/
def sumValues (m : List (κ × Int)) : Int := (m.map Prod.snd).sum

/-- Insert into a list sorted descending by `le` (used to model
`.sort((a, b) => b.key.localeCompare(a.key))`). -/
def insertByDesc (le : κ → κ → Bool) (p : κ × Int) :
    List (κ × Int) → List (κ × Int)
  | [] => [p]
  | q :: rest =>
    if le q.1 p.1 then p :: q :: rest else q :: insertByDesc le p rest

/-- Sort the entries descending by key. -/
def sortByDesc (le : κ → κ → Bool) : List (κ × Int) → List (κ × Int)
  | [] => []
  | p :: rest => insertByDesc le p (sortByDesc le rest)

end KeyMap

/-- State carried through the `calculateLogsDuration` scan. -/
structure ScanState where
  totals : List (Int × Int)
  lastStartTime : Option Int
  deriving DecidableEq, Repr

/-- One iteration of the `for (const log of logs)` loop of
`calculateLogsDuration`. -/
def scanStep (r : Nat) (s : ScanState) (e : LogEntry) : ScanState :=
  let time := toMs e.timestamp
  let dateKey := dayKey e.timestamp r
  let totals := initKey s.totals dateKey
  match e.type with
  | .work_start | .break_end =>
    match s.lastStartTime with
    | none => ⟨totals, some time⟩
    | some _ => ⟨totals, s.lastStartTime⟩
  | .work_end | .break_start =>
    match s.lastStartTime with
    | some ls =>
      let startDateKey := dayKey (ofMs ls) r
      ⟨addKey (initKey totals startDateKey) startDateKey (time - ls), none⟩
    | none => ⟨totals, none⟩

/-- `calculateLogsDuration` from `index.ts`: scan the (ascending) log once,
pairing each open (`work_start`/`break_end`) with the next close
(`work_end`/`break_start`) and crediting the difference to the logical day
of the open; an in-progress trailing interval is not counted. -/
def calculateLogsDuration (logs : List LogEntry) (r : Nat) :
    List (Int × Int) :=
  (logs.foldl (scanStep r) ⟨[], none⟩).totals

/-- Gregorian calendar date (year, month) of a day index, with day 0 =
1970-01-01 (the civil-from-days algorithm); this is what the
`YYYY-MM` slice of `toISOString()` exposes. -/
def civilYM (z : Int) : Int × Int :=
  let z' := z + 719468
  let era := Int.fdiv z' 146097
  let doe := z' - era * 146097
  let yoe :=
    Int.fdiv (doe - Int.fdiv doe 1460 + Int.fdiv doe 36524 - Int.fdiv doe 146096) 365
  let y := yoe + era * 400
  let doy := doe - (365 * yoe + Int.fdiv yoe 4 - Int.fdiv yoe 100)
  let mp := Int.fdiv (5 * doy + 2) 153
  let m := mp + (if mp < 10 then 3 else -9)
  (if m ≤ 2 then y + 1 else y, m)

/-- `dateStr.substring(0, 7)`: the `YYYY-MM` month key of a day key. -/
def monthKeyOf (d : Int) : Int × Int := civilYM d

/-- `Date.prototype.getDay()` (0 = Sunday); day 0 = 1970-01-01 was a
Thursday. -/
def jsGetDay (d : Int) : Int := Int.emod (d + 4) 7

/-- The Monday-of-week key: `date.getDate() - day + (day === 0 ? -6 : 1)`
normalised by `setDate`, i.e. step back to the Monday on or before `d`. -/
def mondayOf (d : Int) : Int :=
  let day := jsGetDay d
  d - day + (if day = 0 then -6 else 1)

/-- descending order on `Int` keys (ISO date strings compare
chronologically). -/
def intDescLe (a b : Int) : Bool := decide (a ≤ b)

/-- descending lexicographic order on `(year, month)` keys. -/
def ymDescLe (a b : Int × Int) : Bool :=
  decide (a.1 < b.1 ∨ (a.1 = b.1 ∧ a.2 ≤ b.2))

/-- The response shape of `GET /summary`. -/
structure Summary where
  daily : List (Int × Int)
  weekly : List (Int × Int)
  monthly : List ((Int × Int) × Int)
  total : Int
  deriving DecidableEq, Repr

/-- Accumulator of the `Object.entries(dailyTotals).forEach` loop in the
`/summary` handler. -/
structure SumAcc where
  total : Int
  weeklyMap : List (Int × Int)
  monthlyMap : List ((Int × Int) × Int)
  deriving DecidableEq, Repr

/-- One iteration of that loop: add to the grand total, bump the monthly
bucket, bump the weekly bucket. -/
def sumStep (acc : SumAcc) (p : Int × Int) : SumAcc :=
  { total := acc.total + p.2
    monthlyMap := bumpKey acc.monthlyMap (monthKeyOf p.1) p.2
    weeklyMap := bumpKey acc.weeklyMap (mondayOf p.1) p.2 }

/-- The aggregation part of `GET /summary`: daily totals from
`calculateLogsDuration`, then weekly (Monday-anchored) and monthly
(`YYYY-MM`) roll-ups and a grand total computed from the per-day totals,
each list sorted newest-first. -/
def summarize (logs : List LogEntry) (r : Nat) : Summary :=
  let dailyTotals := calculateLogsDuration logs r
  let acc := dailyTotals.foldl sumStep ⟨0, [], []⟩
  { daily := sortByDesc intDescLe dailyTotals
    weekly := sortByDesc intDescLe acc.weeklyMap
    monthly := sortByDesc ymDescLe acc.monthlyMap
    total := acc.total }

/-- `GET /summary`: fetch the stored log (no reconciliation) and
aggregate it. -/
def summaryHandler (st : UserState) (now : DateTime) (r : Nat) : Summary :=
  summarize st.log r

/-- The `todayMs` computation of `POST /notify`: the closed total for the
current logical day, plus — when the status is `working` — the in-progress
session `(now − effectiveStart)`, where `effectiveStart` is the last log
entry's timestamp clamped to `resetHour:00:00` of the current logical
day. -/
def notifyTodayMs (log : List LogEntry) (status : Status) (now : DateTime)
    (r : Nat) : Int :=
  let dailyTotals := calculateLogsDuration log r
  let dateKey := dayKey now r
  let todayMs := lookupKey dailyTotals dateKey
  if status = .working then
    match log.getLast? with
    | some lastE =>
      let startTime := toMs lastE.timestamp
      let todayResetTime := dateKey * 86400000 + (r : Int) * 3600000
      let effectiveStart := max startTime todayResetTime
      let effectiveEnd := toMs now
      if effectiveStart < effectiveEnd then
        todayMs + (effectiveEnd - effectiveStart)
      else todayMs
    | none => todayMs
  else todayMs

/-!
Declarative (spec-level) description of the aggregator, used to state the
refinement theorems: the scan pairs each opening entry with the next
closing entry, ignoring redundant opens and unmatched closes, and drops a
trailing open interval.
-/

/-- Opening entry kinds (`work_start`, `break_end`). -/
def isOpenKind : LogType → Bool
  | .work_start | .break_end => true
  | .work_end | .break_start => false

/-- The matched `(start, end)` interval pairs (epoch ms) of a log, given
the currently open start: an opening entry opens an interval only when
none is open; a closing entry closes the open interval if any; a trailing
open interval yields no pair. -/
def openPairs (acc : Option Int) : List LogEntry → List (Int × Int)
  | [] => []
  | e :: rest =>
    match acc, isOpenKind e.type with
    | none, true => openPairs (some (toMs e.timestamp)) rest
    | some s, true => openPairs (some s) rest
    | some s, false => (s, toMs e.timestamp) :: openPairs none rest
    | none, false => openPairs none rest

/-- Total milliseconds credited to logical day `d`: the sum of
`end − start` over the matched pairs whose start instant falls on logical
day `d`. -/
def pairSumOn (r : Nat) (d : Int) (ps : List (Int × Int)) : Int :=
  (ps.filter fun p => decide (dayKey (ofMs p.1) r = d)).foldr
    (fun p a => (p.2 - p.1) + a) 0

/-! Helper lemmas about `lastLog` and `reconcile` -/

theorem laterLog_eq_or (a b : LogEntry) : laterLog a b = a ∨ laterLog a b = b := by
  unfold laterLog
  split <;> simp

theorem laterLog_of_le {a b : LogEntry}
    (h : toMs a.timestamp ≤ toMs b.timestamp) : laterLog a b = b := by
  unfold laterLog
  rw [if_pos h]

theorem le_laterLog_left (a b : LogEntry) :
    toMs a.timestamp ≤ toMs (laterLog a b).timestamp := by
  unfold laterLog
  split <;> omega

theorem le_laterLog_right (a b : LogEntry) :
    toMs b.timestamp ≤ toMs (laterLog a b).timestamp := by
  unfold laterLog
  split <;> omega

theorem foldl_laterLog_mem (t : List LogEntry) :
    ∀ a : LogEntry, t.foldl laterLog a ∈ a :: t := by
  induction t with
  | nil => intro a; simp
  | cons b t ih =>
    intro a
    have h := ih (laterLog a b)
    rcases laterLog_eq_or a b with h1 | h1 <;>
      simp only [List.foldl_cons] <;> rw [h1] at h ⊢ <;>
      rcases List.mem_cons.mp h with h2 | h2 <;> simp [h2]

theorem foldl_laterLog_ge (t : List LogEntry) :
    ∀ (a : LogEntry), ∀ x ∈ a :: t,
      toMs x.timestamp ≤ toMs (t.foldl laterLog a).timestamp := by
  induction t with
  | nil => intro a x hx; simp at hx; subst hx; exact le_refl _
  | cons b t ih =>
    intro a x hx
    simp only [List.foldl_cons]
    rcases List.mem_cons.mp hx with h | h
    · subst h
      calc toMs x.timestamp ≤ toMs (laterLog x b).timestamp := le_laterLog_left x b
        _ ≤ _ := ih (laterLog x b) _ (List.mem_cons_self _ _)
    · rcases List.mem_cons.mp h with h2 | h2
      · subst h2
        calc toMs x.timestamp ≤ toMs (laterLog a x).timestamp := le_laterLog_right a x
          _ ≤ _ := ih (laterLog a x) _ (List.mem_cons_self _ _)
      · exact ih (laterLog a b) x (List.mem_cons_of_mem _ h2)

theorem lastLog_mem {l : List LogEntry} {e : LogEntry} (h : lastLog l = some e) :
    e ∈ l := by
  cases l with
  | nil => simp [lastLog] at h
  | cons a t =>
    simp only [lastLog, Option.some.injEq] at h
    subst h
    exact foldl_laterLog_mem t a

theorem lastLog_ge {l : List LogEntry} {e : LogEntry} (h : lastLog l = some e) :
    ∀ x ∈ l, toMs x.timestamp ≤ toMs e.timestamp := by
  cases l with
  | nil => simp [lastLog] at h
  | cons a t =>
    simp only [lastLog, Option.some.injEq] at h
    subst h
    exact fun x hx => foldl_laterLog_ge t a x hx

theorem lastLog_append {l : List LogEntry} {e : LogEntry}
    (h : ∀ x ∈ l, toMs x.timestamp ≤ toMs e.timestamp) :
    lastLog (l ++ [e]) = some e := by
  cases l with
  | nil => rfl
  | cons a t =>
    simp only [List.cons_append, lastLog, Option.some.injEq, List.foldl_append,
      List.foldl_cons, List.foldl_nil]
    have hm := foldl_laterLog_mem t a
    have hle : toMs (t.foldl laterLog a).timestamp ≤ toMs e.timestamp :=
      h _ (by simpa using hm)
    exact laterLog_of_le hle

/-- From a state whose status is `unregistered`, reconciliation never
changes anything. -/
theorem reconcile_unreg {st : UserState} (now : DateTime) (r : Nat)
    (h : st.status = .unregistered) : reconcile st now r = st := by
  unfold reconcile
  cases hl : lastLog st.log with
  | none => rfl
  | some e => simp [h]

/-- When the logical day of the last entry matches that of `now`,
reconciliation is the identity. -/
theorem reconcile_same {st : UserState} {now : DateTime} {r : Nat}
    {e : LogEntry} (hlast : lastLog st.log = some e)
    (heq : getLogicalDate e.timestamp r = getLogicalDate now r) :
    reconcile st now r = st := by
  unfold reconcile
  rw [hlast]
  simp [heq]

/-- Reconciliation either leaves the state unchanged or sets the status to
`working` while appending one synthetic entry. -/
theorem reconcile_cases (st : UserState) (now : DateTime) (r : Nat) :
    reconcile st now r = st ∨
    reconcile st now r =
      ⟨.working, st.log ++ [⟨.work_start, setHoursR now r⟩]⟩ := by
  unfold reconcile
  cases hl : lastLog st.log with
  | none => left; rfl
  | some e =>
    by_cases heq : getLogicalDate e.timestamp r = getLogicalDate now r
    · left; simp [heq]
    · rcases hs : st.status with _ | _ | _
      · left; simp [heq, hs]
      · right; simp [heq, hs]
      · right; simp [heq, hs]

/-! Claim C8 -/

/-- Claim C8: `getLogicalDate` is total and pure; an instant whose local
hour is strictly below `resetHour` is mapped to the previous calendar day
with the time of day stripped, any other instant to its own calendar day
with the time of day stripped, and `resetHour = 0` degenerates to plain
calendar-day semantics. -/
theorem c8_logicalDay (t : DateTime) (r : Nat) :
    (hourOf t < r → getLogicalDate t r = ⟨t.day - 1, 0⟩) ∧
    (r ≤ hourOf t → getLogicalDate t r = ⟨t.day, 0⟩) ∧
    getLogicalDate t 0 = ⟨t.day, 0⟩ := by
  refine ⟨fun h => ?_, fun h => ?_, ?_⟩ <;>
    simp [getLogicalDate] <;> omega

/-- Witness for C8 at 03:00 and 10:00 of day 5 with `resetHour = 5`. -/
theorem c8_logicalDay_witness :
    getLogicalDate ⟨5, 10800000⟩ 5 = ⟨4, 0⟩ ∧
    getLogicalDate ⟨5, 36000000⟩ 5 = ⟨5, 0⟩ ∧
    getLogicalDate ⟨5, 10800000⟩ 0 = ⟨5, 0⟩ :=
  ⟨(c8_logicalDay ⟨5, 10800000⟩ 5).1 (by decide),
   (c8_logicalDay ⟨5, 36000000⟩ 5).2.1 (by decide),
   (c8_logicalDay ⟨5, 10800000⟩ 0).2.2⟩

/-! Claim C1 -/

/-- Claim C1 counterexample: with `resetHour = 5`, status `working`, last
entry at 10:00 of day −1, and `now` at 03:00 of day 1 (logical day 0), the
synthetic entry is stamped 05:00 of day 1 — not `resetHour:00:00` of the
logical day of `now` (which would be 05:00 of day 0), refuting the claim's
timestamp. -/
theorem c1_counterexample :
    reconcile ⟨.working, [⟨.work_start, ⟨-1, 36000000⟩⟩]⟩ ⟨1, 10800000⟩ 5 =
      ⟨.working, [⟨.work_start, ⟨-1, 36000000⟩⟩,
        ⟨.work_start, ⟨1, 18000000⟩⟩]⟩ ∧
    (⟨1, 18000000⟩ : DateTime) ≠
      setHoursR (getLogicalDate ⟨1, 10800000⟩ 5) 5 := by
  constructor
  · decide
  · decide

/-- Claim C1 (amended): when the last log entry's logical day differs from
that of `now` and the status is `working` or `on_break`, reconciliation
appends exactly one synthetic `work_start` stamped `resetHour:00:00` of
**now's calendar day** and sets the status to `working`; that timestamp
equals `resetHour:00:00` of the logical day of `now` whenever now's hour is
at least `resetHour` (but not when now's hour is before `resetHour`). -/
theorem c1_amended (st : UserState) (now : DateTime) (r : Nat) (e : LogEntry)
    (hlast : lastLog st.log = some e)
    (hdiff : getLogicalDate e.timestamp r ≠ getLogicalDate now r)
    (hst : st.status = .working ∨ st.status = .on_break) :
    reconcile st now r =
      ⟨.working, st.log ++ [⟨.work_start, setHoursR now r⟩]⟩ ∧
    (r ≤ hourOf now → setHoursR now r = setHoursR (getLogicalDate now r) r) := by
  constructor
  · unfold reconcile
    rw [hlast]
    simp [hdiff, hst]
  · intro h
    simp [setHoursR, getLogicalDate, Nat.not_lt.mpr h]

/-- Witness for C1 (amended) at the concrete overnight scenario of the
spec's §8 example: last entry 23:00 of day 0, `now` 06:00 of day 1,
`resetHour = 5`. -/
theorem c1_amended_witness :
    reconcile ⟨.working, [⟨.work_start, ⟨0, 82800000⟩⟩]⟩ ⟨1, 21600000⟩ 5 =
      ⟨.working, [⟨.work_start, ⟨0, 82800000⟩⟩,
        ⟨.work_start, ⟨1, 18000000⟩⟩]⟩ ∧
    setHoursR ⟨1, 21600000⟩ 5 = setHoursR (getLogicalDate ⟨1, 21600000⟩ 5) 5 := by
  have h := c1_amended ⟨.working, [⟨.work_start, ⟨0, 82800000⟩⟩]⟩
    ⟨1, 21600000⟩ 5 ⟨.work_start, ⟨0, 82800000⟩⟩ (by decide) (by decide)
    (by decide)
  exact ⟨h.1, h.2 (by decide)⟩

/-! Claim C3 -/

/-- Claim C3 counterexample: the `/summary` handler does **not** reconcile:
at a state (status `working`, one `work_start` at 10:00 of day 0) where
reconciliation against `now` (10:00 of day 1, `resetHour = 5`) would append
a synthetic entry, the summary it returns differs from the summary of the
reconciled log. -/
theorem c3_counterexample :
    summaryHandler ⟨.working, [⟨.work_start, ⟨0, 36000000⟩⟩]⟩ ⟨1, 36000000⟩ 5 ≠
      summarize
        ((reconcile ⟨.working, [⟨.work_start, ⟨0, 36000000⟩⟩]⟩
          ⟨1, 36000000⟩ 5).log) 5 := by
  decide

/-- Claim C3 (amended): `stamp`, `clock_out` and `status` all apply
day-rollover reconciliation before the state machine reads or mutates the
status and log, but the `/summary` report aggregates the stored log as-is,
without reconciliation — its output does not depend on `now` at all. -/
theorem c3_amended (st : UserState) (now now2 : DateTime) (r : Nat) :
    stampHandler st now r = stampCore (reconcile st now r) now ∧
    clockOutHandler st now r = clockOutCore (reconcile st now r) now ∧
    statusHandler st now r =
      (reconcile st now r,
        ((reconcile st now r).status, (reconcile st now r).log)) ∧
    summaryHandler st now r = summarize st.log r ∧
    summaryHandler st now r = summaryHandler st now2 r :=
  ⟨rfl, rfl, rfl, rfl, rfl⟩

/-! Claim C6 -/

/-- If reconciliation ends with status `unregistered` it did not change the
state at all. -/
theorem reconcile_unreg_of_result {st : UserState} {now : DateTime} {r : Nat}
    (h : (reconcile st now r).status = .unregistered) :
    reconcile st now r = st := by
  rcases reconcile_cases st now r with hc | hc
  · exact hc
  · rw [hc] at h
    simp at h

/-- Claim C6: calling `clock_out` while the post-reconciliation status is
`unregistered` reports the invalid-transition error, appends no log entry,
and leaves the status and log exactly as they were. -/
theorem c6_clockOut_unregistered (st : UserState) (now : DateTime) (r : Nat)
    (h : (reconcile st now r).status = .unregistered) :
    clockOutHandler st now r = (st, .errNotWorking) := by
  have hid : reconcile st now r = st := reconcile_unreg_of_result h
  unfold clockOutHandler clockOutCore
  rw [hid] at h ⊢
  simp [h]

/-- Witness for C6 at an `unregistered` state with one closed day in the
log. -/
theorem c6_clockOut_unregistered_witness :
    clockOutHandler
      ⟨.unregistered, [⟨.work_start, ⟨0, 36000000⟩⟩, ⟨.work_end, ⟨0, 61200000⟩⟩]⟩
      ⟨1, 36000000⟩ 5 =
      (⟨.unregistered,
        [⟨.work_start, ⟨0, 36000000⟩⟩, ⟨.work_end, ⟨0, 61200000⟩⟩]⟩,
       .errNotWorking) :=
  c6_clockOut_unregistered
    ⟨.unregistered, [⟨.work_start, ⟨0, 36000000⟩⟩, ⟨.work_end, ⟨0, 61200000⟩⟩]⟩
    ⟨1, 36000000⟩ 5 (by decide)

/-! Claim C2 -/

/-- The synthetic boundary instant lies on the logical day of `now`
whenever now's hour has reached the reset hour. -/
theorem getLogicalDate_setHoursR (now : DateTime) (r : Nat) :
    getLogicalDate (setHoursR now r) r = ⟨now.day, 0⟩ := by
  have h : hourOf (setHoursR now r) = r := by
    simp [hourOf, setHoursR, Nat.mul_div_cancel]
  unfold getLogicalDate
  rw [h]
  simp [setHoursR]

/-- A well-formed instant lying between the synthetic boundary
`setHoursR now r` and `now` itself shares the logical day of `now`
(given now's hour has reached the reset hour). -/
theorem logical_eq_of_between {t now : DateTime} {r : Nat}
    (hwt : WFt t) (hwn : WFt now) (hr : r ≤ hourOf now)
    (h1 : toMs (setHoursR now r) ≤ toMs t) (h2 : toMs t ≤ toMs now) :
    getLogicalDate t r = getLogicalDate now r := by
  have hrn : r * 3600000 ≤ now.msOfDay :=
    (Nat.le_div_iff_mul_le (by norm_num)).mp hr
  simp only [toMs, setHoursR, WFt] at h1 h2 hwt hwn
  have hday : t.day = now.day := by omega
  have hmst : r * 3600000 ≤ t.msOfDay := by omega
  have hrt : r ≤ hourOf t := (Nat.le_div_iff_mul_le (by norm_num)).mpr hmst
  simp [getLogicalDate, Nat.not_lt.mpr hr, Nat.not_lt.mpr hrt, hday]

theorem lastLog_some (l : List LogEntry) (e : LogEntry) :
    ∃ m, lastLog (l ++ [e]) = some m := by
  cases l with
  | nil => exact ⟨e, rfl⟩
  | cons a t => exact ⟨_, rfl⟩

/-- Reconciliation is idempotent when `now` is past the reset hour and no
log entry is future-dated. -/
theorem reconcile_idem (st : UserState) (now : DateTime) (r : Nat)
    (hwn : WFt now) (hlw : ∀ e ∈ st.log, WFt e.timestamp)
    (hpast : ∀ e ∈ st.log, toMs e.timestamp ≤ toMs now)
    (hr : r ≤ hourOf now) :
    reconcile (reconcile st now r) now r = reconcile st now r := by
  rcases reconcile_cases st now r with hc | hc
  · rw [hc]
    exact hc
  · rw [hc]
    obtain ⟨m, hm⟩ := lastLog_some st.log ⟨.work_start, setHoursR now r⟩
    refine @reconcile_same ⟨.working, st.log ++ [⟨.work_start, setHoursR now r⟩]⟩ now r m hm ?_
    have hmem : m ∈ st.log ++ [⟨.work_start, setHoursR now r⟩] := lastLog_mem hm
    have hsynmem : (⟨.work_start, setHoursR now r⟩ : LogEntry) ∈
        st.log ++ [⟨.work_start, setHoursR now r⟩] := by simp
    have hge : toMs (setHoursR now r) ≤ toMs m.timestamp :=
      lastLog_ge hm _ hsynmem
    rcases List.mem_append.mp hmem with hin | hin
    · exact logical_eq_of_between (hlw m hin) hwn hr hge (hpast m hin)
    · have : m = ⟨.work_start, setHoursR now r⟩ := by simpa using hin
      subst this
      rw [getLogicalDate_setHoursR]
      simp [getLogicalDate, Nat.not_lt.mpr hr]

/-- Claim C2 counterexample: with `resetHour = 5`, status `working`, last
entry 10:00 of day −1 and `now` 03:00 of day 1, running `getStatus` a
second time with the same `now` appends a second (duplicate) synthetic
entry, because the first synthetic entry is stamped 05:00 of day 1 — a
*future* instant on a *different* logical day than `now`. -/
theorem c2_counterexample :
    ((statusHandler ((statusHandler
        ⟨.working, [⟨.work_start, ⟨-1, 36000000⟩⟩]⟩ ⟨1, 10800000⟩ 5).1)
        ⟨1, 10800000⟩ 5).1).log ≠
      ((statusHandler ⟨.working, [⟨.work_start, ⟨-1, 36000000⟩⟩]⟩
        ⟨1, 10800000⟩ 5).1).log := by
  decide

/-- Claim C2 (amended): `getStatus` run twice with the same `now` yields
the same reconciled state as running it once, **provided** no stored log
entry is future-dated relative to `now` and now's hour has reached the
reset hour (otherwise a duplicate synthetic entry can be appended, see the
counterexample); and — unconditionally — a single run appends at most one
entry, no matter how many logical days have elapsed. -/
theorem c2_amended (st : UserState) (now : DateTime) (r : Nat)
    (hwn : WFt now) (hlw : ∀ e ∈ st.log, WFt e.timestamp)
    (hpast : ∀ e ∈ st.log, toMs e.timestamp ≤ toMs now)
    (hr : r ≤ hourOf now) :
    (statusHandler ((statusHandler st now r).1) now r).1 =
      (statusHandler st now r).1 ∧
    ∀ (st2 : UserState) (now2 : DateTime) (r2 : Nat),
      ((statusHandler st2 now2 r2).1).log.length ≤ st2.log.length + 1 := by
  constructor
  · exact reconcile_idem st now r hwn hlw hpast hr
  · intro st2 now2 r2
    show (reconcile st2 now2 r2).log.length ≤ st2.log.length + 1
    rcases reconcile_cases st2 now2 r2 with hc | hc <;> rw [hc] <;> simp

/-- Witness for C2 (amended): overnight `working` state, `now` 06:00 of
day 1 with `resetHour = 5`. -/
theorem c2_amended_witness :
    (statusHandler ((statusHandler
        ⟨.working, [⟨.work_start, ⟨0, 82800000⟩⟩]⟩ ⟨1, 21600000⟩ 5).1)
        ⟨1, 21600000⟩ 5).1 =
      (statusHandler ⟨.working, [⟨.work_start, ⟨0, 82800000⟩⟩]⟩
        ⟨1, 21600000⟩ 5).1 ∧
    ((statusHandler ⟨.working, [⟨.work_start, ⟨0, 82800000⟩⟩]⟩
        ⟨1, 21600000⟩ 5).1).log.length ≤ 2 := by
  have h := c2_amended ⟨.working, [⟨.work_start, ⟨0, 82800000⟩⟩]⟩
    ⟨1, 21600000⟩ 5 (by decide) (by decide) (by decide) (by decide)
  exact ⟨h.1, h.2 _ _ _⟩

/-! Claim C7 -/

/-- Claim C7: from `unregistered`, three `stamp` calls (all on the same
logical day, in chronological order, with no future-dated stored entries)
drive the status `unregistered → working → on_break → working` and append
exactly `work_start`, `break_start`, `break_end`, each stamped with its
call's `now`. -/
theorem c7_stamp_cycle (st : UserState) (now1 now2 now3 : DateTime) (r : Nat)
    (hst : st.status = .unregistered)
    (hle1 : ∀ e ∈ st.log, toMs e.timestamp ≤ toMs now1)
    (h12 : toMs now1 ≤ toMs now2) (h23 : toMs now2 ≤ toMs now3)
    (hd12 : getLogicalDate now1 r = getLogicalDate now2 r)
    (hd23 : getLogicalDate now2 r = getLogicalDate now3 r) :
    stampHandler st now1 r =
      (⟨.working, st.log ++ [⟨.work_start, now1⟩]⟩, .working) ∧
    stampHandler ⟨.working, st.log ++ [⟨.work_start, now1⟩]⟩ now2 r =
      (⟨.on_break, st.log ++ [⟨.work_start, now1⟩, ⟨.break_start, now2⟩]⟩,
        .on_break) ∧
    stampHandler
        ⟨.on_break, st.log ++ [⟨.work_start, now1⟩, ⟨.break_start, now2⟩]⟩
        now3 r =
      (⟨.working, st.log ++ [⟨.work_start, now1⟩, ⟨.break_start, now2⟩,
        ⟨.break_end, now3⟩]⟩, .working) := by
  obtain ⟨sts, lg⟩ := st
  simp only at hst hle1
  subst hst
  dsimp only
  refine ⟨?_, ?_, ?_⟩
  · unfold stampHandler
    rw [reconcile_unreg now1 r rfl]
    simp [stampCore]
  · unfold stampHandler
    have hlast : lastLog (lg ++ [⟨.work_start, now1⟩]) =
        some ⟨.work_start, now1⟩ := lastLog_append hle1
    rw [reconcile_same hlast hd12]
    simp [stampCore]
  · unfold stampHandler
    have hle2 : ∀ x ∈ lg ++ [⟨.work_start, now1⟩],
        toMs x.timestamp ≤ toMs now2 := by
      intro x hx
      rcases List.mem_append.mp hx with h | h
      · exact le_trans (hle1 x h) h12
      · simp at h
        subst h
        exact h12
    have hlast : lastLog (lg ++ [⟨.work_start, now1⟩,
        ⟨.break_start, now2⟩]) = some ⟨.break_start, now2⟩ := by
      have h := @lastLog_append (lg ++ [⟨.work_start, now1⟩])
        ⟨.break_start, now2⟩ hle2
      simpa using h
    have hrec : reconcile ⟨.on_break, lg ++ [⟨.work_start, now1⟩,
        ⟨.break_start, now2⟩]⟩ now3 r =
        ⟨.on_break, lg ++ [⟨.work_start, now1⟩, ⟨.break_start, now2⟩]⟩ :=
      reconcile_same hlast hd23
    rw [hrec]
    simp [stampCore]

/-- Witness for C7: empty log, stamps at 09:00, 12:00 and 12:30 of day 0
with `resetHour = 5`. -/
theorem c7_stamp_cycle_witness :
    stampHandler ⟨.unregistered, []⟩ ⟨0, 32400000⟩ 5 =
      (⟨.working, [⟨.work_start, ⟨0, 32400000⟩⟩]⟩, .working) ∧
    stampHandler ⟨.working, [⟨.work_start, ⟨0, 32400000⟩⟩]⟩ ⟨0, 43200000⟩ 5 =
      (⟨.on_break, [⟨.work_start, ⟨0, 32400000⟩⟩,
        ⟨.break_start, ⟨0, 43200000⟩⟩]⟩, .on_break) ∧
    stampHandler ⟨.on_break, [⟨.work_start, ⟨0, 32400000⟩⟩,
        ⟨.break_start, ⟨0, 43200000⟩⟩]⟩ ⟨0, 45000000⟩ 5 =
      (⟨.working, [⟨.work_start, ⟨0, 32400000⟩⟩,
        ⟨.break_start, ⟨0, 43200000⟩⟩, ⟨.break_end, ⟨0, 45000000⟩⟩]⟩,
        .working) := by
  have h := c7_stamp_cycle ⟨.unregistered, []⟩ ⟨0, 32400000⟩ ⟨0, 43200000⟩
    ⟨0, 45000000⟩ 5 (by decide) (by decide) (by decide) (by decide)
    (by decide) (by decide)
  simpa using h

/-! Association-list lemmas for the JS-object maps -/

section KeyMapLemmas

variable {κ : Type} [DecidableEq κ]

theorem keyMem_iff (m : List (κ × Int)) (k : κ) :
    keyMem m k = true ↔ k ∈ keysOf m := by
  simp [keyMem, keysOf, List.any_eq_true]

theorem lookupKey_nil (d : κ) : lookupKey ([] : List (κ × Int)) d = 0 := rfl

theorem lookupKey_cons (p : κ × Int) (t : List (κ × Int)) (d : κ) :
    lookupKey (p :: t) d = if p.1 = d then p.2 else lookupKey t d := by
  by_cases h : p.1 = d
  · rw [if_pos h]
    unfold lookupKey
    rw [List.find?_cons_of_pos _ (by simp [h])]
  · rw [if_neg h]
    unfold lookupKey
    rw [List.find?_cons_of_neg _ (by simp [h])]

theorem lookupKey_append_zero (m : List (κ × Int)) (k d : κ) :
    lookupKey (m ++ [(k, 0)]) d = lookupKey m d := by
  induction m with
  | nil =>
    by_cases h : k = d <;> simp [lookupKey_cons, lookupKey_nil, h]
  | cons p t ih =>
    rw [List.cons_append, lookupKey_cons, lookupKey_cons, ih]

theorem lookupKey_initKey (m : List (κ × Int)) (k d : κ) :
    lookupKey (initKey m k) d = lookupKey m d := by
  unfold initKey
  split
  · rfl
  · exact lookupKey_append_zero m k d

theorem addKey_cons (p : κ × Int) (t : List (κ × Int)) (k : κ) (v : Int) :
    addKey (p :: t) k v =
      (if p.1 = k then (p.1, p.2 + v) else p) :: addKey t k v := rfl

theorem keyMem_cons (p : κ × Int) (t : List (κ × Int)) (k : κ) :
    keyMem (p :: t) k = (decide (p.1 = k) || keyMem t k) := by
  simp [keyMem]

theorem lookupKey_addKey_ne (m : List (κ × Int)) (k : κ) (v : Int) {d : κ}
    (hne : d ≠ k) : lookupKey (addKey m k v) d = lookupKey m d := by
  induction m with
  | nil => rfl
  | cons p t ih =>
    rw [addKey_cons]
    by_cases hp : p.1 = k
    · rw [if_pos hp, lookupKey_cons, lookupKey_cons]
      have hpd : ¬ p.1 = d := by rw [hp]; exact fun h => hne h.symm
      rw [if_neg hpd, if_neg hpd, ih]
    · rw [if_neg hp, lookupKey_cons, lookupKey_cons]
      by_cases hd : p.1 = d
      · rw [if_pos hd, if_pos hd]
      · rw [if_neg hd, if_neg hd, ih]

theorem lookupKey_addKey_self (m : List (κ × Int)) (k : κ) (v : Int)
    (h : keyMem m k = true) :
    lookupKey (addKey m k v) k = lookupKey m k + v := by
  induction m with
  | nil => simp [keyMem] at h
  | cons p t ih =>
    rw [addKey_cons]
    by_cases hp : p.1 = k
    · rw [if_pos hp, lookupKey_cons, lookupKey_cons, if_pos hp, if_pos hp]
    · rw [if_neg hp, lookupKey_cons, lookupKey_cons, if_neg hp, if_neg hp]
      refine ih ?_
      rw [keyMem_cons] at h
      simpa [hp] using h

theorem keyMem_initKey_self (m : List (κ × Int)) (k : κ) :
    keyMem (initKey m k) k = true := by
  unfold initKey
  split
  · assumption
  · simp [keyMem, List.any_append]

theorem lookupKey_addInit (m : List (κ × Int)) (k : κ) (v : Int) (d : κ) :
    lookupKey (addKey (initKey m k) k v) d =
      lookupKey m d + (if k = d then v else 0) := by
  by_cases hdk : d = k
  · subst hdk
    rw [lookupKey_addKey_self _ _ _ (keyMem_initKey_self m d),
      lookupKey_initKey, if_pos rfl]
  · rw [lookupKey_addKey_ne _ _ _ hdk, lookupKey_initKey,
      if_neg (fun h => hdk h.symm)]
    simp

theorem keysOf_addKey (m : List (κ × Int)) (k : κ) (v : Int) :
    keysOf (addKey m k v) = keysOf m := by
  induction m with
  | nil => rfl
  | cons p t ih =>
    unfold addKey at ih ⊢
    unfold keysOf at ih ⊢
    rw [List.map_cons, List.map_cons, List.map_cons]
    by_cases hp : p.1 = k
    · simp only [if_pos hp]
      rw [ih]
    · simp only [if_neg hp]
      rw [ih]

theorem mem_keysOf_initKey (m : List (κ × Int)) (k : κ) {d : κ}
    (h : d ∈ keysOf m) : d ∈ keysOf (initKey m k) := by
  unfold initKey
  split
  · exact h
  · unfold keysOf at h ⊢
    rw [List.map_append]
    exact List.mem_append_left _ h

theorem self_mem_keysOf_initKey (m : List (κ × Int)) (k : κ) :
    k ∈ keysOf (initKey m k) :=
  (keyMem_iff _ _).mp (keyMem_initKey_self m k)

theorem sumValues_cons (p : κ × Int) (t : List (κ × Int)) :
    sumValues (p :: t) = p.2 + sumValues t := by
  simp [sumValues]

theorem sumValues_append_single (m : List (κ × Int)) (k : κ) (v : Int) :
    sumValues (m ++ [(k, v)]) = sumValues m + v := by
  simp [sumValues]

theorem addKey_of_not_mem (m : List (κ × Int)) (k : κ) (v : Int)
    (h : keyMem m k = false) : addKey m k v = m := by
  induction m with
  | nil => rfl
  | cons p t ih =>
    rw [keyMem_cons, Bool.or_eq_false_iff, decide_eq_false_iff_not] at h
    rw [addKey_cons, if_neg h.1, ih h.2]

theorem sumValues_addKey (m : List (κ × Int)) (k : κ) (v : Int)
    (hmem : keyMem m k = true) (hnd : (keysOf m).Nodup) :
    sumValues (addKey m k v) = sumValues m + v := by
  induction m with
  | nil => simp [keyMem] at hmem
  | cons p t ih =>
    rw [keysOf, List.map_cons, List.nodup_cons] at hnd
    rw [addKey_cons]
    by_cases hp : p.1 = k
    · rw [if_pos hp]
      have ht : keyMem t k = false := by
        rw [← hp]
        cases hkm : keyMem t p.1
        · rfl
        · exact absurd ((keyMem_iff _ _).mp hkm) hnd.1
      rw [addKey_of_not_mem t k v ht, sumValues_cons, sumValues_cons]
      ring
    · rw [if_neg hp]
      have hmt : keyMem t k = true := by
        rw [keyMem_cons] at hmem
        simpa [hp] using hmem
      rw [sumValues_cons, sumValues_cons, ih hmt hnd.2]
      ring

theorem sumValues_bumpKey (m : List (κ × Int)) (k : κ) (v : Int)
    (hnd : (keysOf m).Nodup) :
    sumValues (bumpKey m k v) = sumValues m + v := by
  unfold bumpKey
  split
  · exact sumValues_addKey m k v (by assumption) hnd
  · exact sumValues_append_single m k v

theorem keysOf_append_single (m : List (κ × Int)) (k : κ) (v : Int) :
    keysOf (m ++ [(k, v)]) = keysOf m ++ [k] := by
  simp [keysOf]

theorem nodup_keysOf_bumpKey (m : List (κ × Int)) (k : κ) (v : Int)
    (hnd : (keysOf m).Nodup) :
    (keysOf (bumpKey m k v)).Nodup := by
  unfold bumpKey
  split
  · rw [keysOf_addKey]
    exact hnd
  · rename_i h
    have hk : k ∉ keysOf m := fun hmem => by
      rw [(keyMem_iff m k).mpr hmem] at h
      exact h rfl
    rw [keysOf_append_single, List.nodup_append]
    refine ⟨hnd, List.nodup_singleton k, ?_⟩
    intro a ha hb
    rw [List.mem_singleton] at hb
    subst hb
    exact hk ha

theorem sumValues_insertByDesc (le : κ → κ → Bool) (p : κ × Int)
    (l : List (κ × Int)) :
    sumValues (insertByDesc le p l) = p.2 + sumValues l := by
  induction l with
  | nil => simp [insertByDesc, sumValues]
  | cons q t ih =>
    unfold insertByDesc
    split
    · rw [sumValues_cons, sumValues_cons]
    · rw [sumValues_cons, ih, sumValues_cons]
      ring

theorem sumValues_sortByDesc (le : κ → κ → Bool) (l : List (κ × Int)) :
    sumValues (sortByDesc le l) = sumValues l := by
  induction l with
  | nil => rfl
  | cons p t ih =>
    unfold sortByDesc
    rw [sumValues_insertByDesc, ih, sumValues_cons]

theorem foldl_bump (f : Int → κ) (l : List (Int × Int)) :
    ∀ (m : List (κ × Int)), (keysOf m).Nodup →
      sumValues (l.foldl (fun acc p => bumpKey acc (f p.1) p.2) m)
          = sumValues m + sumValues l ∧
        (keysOf (l.foldl (fun acc p => bumpKey acc (f p.1) p.2) m)).Nodup := by
  induction l with
  | nil =>
    intro m hm
    simp [sumValues, hm]
  | cons p t ih =>
    intro m hm
    rw [List.foldl_cons]
    have h := ih (bumpKey m (f p.1) p.2) (nodup_keysOf_bumpKey _ _ _ hm)
    refine ⟨?_, h.2⟩
    rw [h.1, sumValues_bumpKey _ _ _ hm, sumValues_cons]
    ring

end KeyMapLemmas

/-! Claim C5 -/

theorem foldl_sumStep_total (l : List (Int × Int)) :
    ∀ a : SumAcc, (l.foldl sumStep a).total = a.total + sumValues l := by
  induction l with
  | nil => intro a; simp [sumValues]
  | cons p t ih =>
    intro a
    rw [List.foldl_cons, ih, sumValues_cons]
    show a.total + p.2 + sumValues t = a.total + (p.2 + sumValues t)
    ring

theorem foldl_sumStep_weeklyMap (l : List (Int × Int)) :
    ∀ a : SumAcc, (l.foldl sumStep a).weeklyMap =
      l.foldl (fun w p => bumpKey w (mondayOf p.1) p.2) a.weeklyMap := by
  induction l with
  | nil => intro a; rfl
  | cons p t ih =>
    intro a
    rw [List.foldl_cons, ih]
    rfl

theorem foldl_sumStep_monthlyMap (l : List (Int × Int)) :
    ∀ a : SumAcc, (l.foldl sumStep a).monthlyMap =
      l.foldl (fun w p => bumpKey w (monthKeyOf p.1) p.2) a.monthlyMap := by
  induction l with
  | nil => intro a; rfl
  | cons p t ih =>
    intro a
    rw [List.foldl_cons, ih]
    rfl

/-- Claim C5: the summary's buckets are mutually consistent for every log —
the daily totals sum to the grand total, and the weekly and monthly
roll-ups (being grouped sums of the per-day totals) each sum to the grand
total as well. -/
theorem c5_summary_consistent (logs : List LogEntry) (r : Nat) :
    sumValues (summarize logs r).daily = (summarize logs r).total ∧
    sumValues (summarize logs r).weekly = (summarize logs r).total ∧
    sumValues (summarize logs r).monthly = (summarize logs r).total := by
  simp only [summarize]
  refine ⟨?_, ?_, ?_⟩
  · rw [sumValues_sortByDesc, foldl_sumStep_total]
    simp [sumValues]
  · rw [sumValues_sortByDesc, foldl_sumStep_weeklyMap, foldl_sumStep_total]
    have h := (foldl_bump mondayOf (calculateLogsDuration logs r) []
      (by simp [keysOf])).1
    rw [h]
    simp [sumValues]
  · rw [sumValues_sortByDesc, foldl_sumStep_monthlyMap, foldl_sumStep_total]
    have h := (foldl_bump monthKeyOf (calculateLogsDuration logs r) []
      (by simp [keysOf])).1
    rw [h]
    simp [sumValues]

/-! Claim C4 -/

theorem pairSumOn_nil (r : Nat) (d : Int) : pairSumOn r d [] = 0 := rfl

theorem pairSumOn_cons (r : Nat) (d : Int) (a b : Int) (ps : List (Int × Int)) :
    pairSumOn r d ((a, b) :: ps) =
      (if dayKey (ofMs a) r = d then b - a else 0) + pairSumOn r d ps := by
  unfold pairSumOn
  by_cases h : dayKey (ofMs a) r = d
  · rw [if_pos h]
    simp [List.filter_cons, h]
  · rw [if_neg h]
    simp [List.filter_cons, h]

/-- The central scan invariant: starting `calculateLogsDuration`'s loop from
an arbitrary totals map and open marker, the value finally associated with
any day `d` is its initial value plus the summed durations of the matched
pairs opened on logical day `d`. -/
theorem scan_lookup (r : Nat) (d : Int) :
    ∀ (logs : List LogEntry) (m : List (Int × Int)) (s : Option Int),
    lookupKey ((logs.foldl (scanStep r) ⟨m, s⟩).totals) d
      = lookupKey m d + pairSumOn r d (openPairs s logs) := by
  intro logs
  induction logs with
  | nil =>
    intro m s
    simp [openPairs, pairSumOn_nil]
  | cons e t ih =>
    intro m s
    rw [List.foldl_cons]
    rcases he : e.type with _ | _ | _ | _ <;> rcases s with _ | s0 <;>
      simp only [scanStep, he, openPairs, isOpenKind] <;>
      rw [ih] <;>
      simp only [lookupKey_initKey, lookupKey_addInit, pairSumOn_cons] <;>
      omega

/-- Claim C4: `calculateLogsDuration` refines the declarative pairing
description — scanning an (ascending) log with a single open-start marker,
where `work_start`/`break_end` opens an interval only when none is open
(redundant opens ignored), `work_end`/`break_start` closes the open
interval (unmatched closes ignored), and each closed interval's full
`end − start` duration is credited to the logical day of its **start**
instant: for every day `d`, the day's total equals the sum over exactly
those matched pairs whose start lies on logical day `d`. -/
theorem c4_aggregator_pairs (logs : List LogEntry) (r : Nat) (d : Int) :
    lookupKey (calculateLogsDuration logs r) d =
      pairSumOn r d (openPairs none logs) := by
  have h := scan_lookup r d logs [] none
  unfold calculateLogsDuration
  rw [h, lookupKey_nil, zero_add]

/-! Claim C10 -/

theorem key_mem_scanStep (r : Nat) (st : ScanState) (e : LogEntry) :
    dayKey e.timestamp r ∈ keysOf (scanStep r st e).totals := by
  rcases he : e.type with _ | _ | _ | _ <;> rcases hs : st.lastStartTime with _ | s0 <;>
    simp only [scanStep, he, hs] <;>
    first
      | exact self_mem_keysOf_initKey _ _
      | · rw [keysOf_addKey]
          exact mem_keysOf_initKey _ _ (self_mem_keysOf_initKey _ _)

theorem keysOf_scanStep_mono (r : Nat) (st : ScanState) (e : LogEntry)
    {k : Int} (h : k ∈ keysOf st.totals) :
    k ∈ keysOf (scanStep r st e).totals := by
  rcases he : e.type with _ | _ | _ | _ <;> rcases hs : st.lastStartTime with _ | s0 <;>
    simp only [scanStep, he, hs] <;>
    first
      | exact mem_keysOf_initKey _ _ h
      | · rw [keysOf_addKey]
          exact mem_keysOf_initKey _ _ (mem_keysOf_initKey _ _ h)

theorem keysOf_foldl_mono (r : Nat) (logs : List LogEntry) :
    ∀ (st : ScanState) (k : Int), k ∈ keysOf st.totals →
      k ∈ keysOf ((logs.foldl (scanStep r) st).totals) := by
  induction logs with
  | nil => intro st k h; exact h
  | cons e t ih =>
    intro st k h
    rw [List.foldl_cons]
    exact ih _ k (keysOf_scanStep_mono r st e h)

theorem key_mem_foldl (r : Nat) (logs : List LogEntry) :
    ∀ (st : ScanState) (e : LogEntry), e ∈ logs →
      dayKey e.timestamp r ∈ keysOf ((logs.foldl (scanStep r) st).totals) := by
  induction logs with
  | nil => intro st e h; simp at h
  | cons a t ih =>
    intro st e h
    rw [List.foldl_cons]
    rcases List.mem_cons.mp h with h1 | h1
    · subst h1
      exact keysOf_foldl_mono r t _ _ (key_mem_scanStep r st e)
    · exact ih _ e h1

/-- Claim C10: the scan creates a (zero-initialised) bucket for the logical
day of every entry it sees, so the daily mapping contains a key for each
logical day that has any log entry — even days whose accumulated total is
`0` ms (e.g. a day whose only entry is an unmatched `work_start`). -/
theorem c10_day_buckets (logs : List LogEntry) (r : Nat) (e : LogEntry)
    (he : e ∈ logs) :
    dayKey e.timestamp r ∈ keysOf (calculateLogsDuration logs r) :=
  key_mem_foldl r logs ⟨[], none⟩ e he

/-- Witness for C10: a log whose only entry is an unmatched `work_start`
still yields a bucket for that day, with a recorded total of `0` ms. -/
theorem c10_day_buckets_witness :
    dayKey (⟨0, 36000000⟩ : DateTime) 5 ∈
      keysOf (calculateLogsDuration [⟨.work_start, ⟨0, 36000000⟩⟩] 5) ∧
    lookupKey (calculateLogsDuration [⟨.work_start, ⟨0, 36000000⟩⟩] 5)
      (dayKey (⟨0, 36000000⟩ : DateTime) 5) = 0 :=
  ⟨c10_day_buckets [⟨.work_start, ⟨0, 36000000⟩⟩] 5
    ⟨.work_start, ⟨0, 36000000⟩⟩ (by decide), by decide⟩

/-! Claim C9 -/

theorem openPairs_append_open {e : LogEntry} (h : isOpenKind e.type = true)
    (l : List LogEntry) :
    ∀ s : Option Int, openPairs s (l ++ [e]) = openPairs s l := by
  induction l with
  | nil =>
    intro s
    rcases s with _ | s0 <;> simp [openPairs, h]
  | cons a t ih =>
    intro s
    rcases ha : a.type with _ | _ | _ | _ <;> rcases s with _ | s0 <;>
      simp only [List.cons_append, openPairs, isOpenKind, ha, List.append_eq] <;>
      rw [ih]

theorem dayKey_def (t : DateTime) (r : Nat) :
    dayKey t r = if t.msOfDay / 3600000 < r then t.day - 1 else t.day := by
  unfold dayKey getLogicalDate hourOf
  split <;> rfl

/-- The `/notify` in-progress computation, in closed form: the closed daily
total for today plus the clamped open-session length (possibly zero). -/
theorem notify_formula (log : List LogEntry) (lastE : LogEntry)
    (now : DateTime) (r : Nat) (hlast : log.getLast? = some lastE) :
    notifyTodayMs log .working now r =
      lookupKey (calculateLogsDuration log r) (dayKey now r) +
        max 0 (toMs now - max (toMs lastE.timestamp)
          (dayKey now r * 86400000 + (r : Int) * 3600000)) := by
  simp only [notifyTodayMs, hlast]
  norm_num
  split_ifs with h
  · have h0 : (0 : Int) ≤ toMs now - max (toMs lastE.timestamp)
        (dayKey now r * 86400000 + (r : Int) * 3600000) := by omega
    rw [max_eq_right h0]
  · have h0 : toMs now - max (toMs lastE.timestamp)
        (dayKey now r * 86400000 + (r : Int) * 3600000) ≤ 0 := by omega
    rw [max_eq_left h0, add_zero]

/-- Claim C9: (a) an interval still open at the end of the scan is excluded
from the persisted daily totals — appending an opening entry never changes
any day's total; (b) in the `/notify` "as of now" path with status
`working`, when the open session began on an earlier logical day the added
time is `now − boundary` with the effective start clamped to the current
logical day's reset-hour boundary; (c) when it began on the current logical
day the added time is `now − openStart`, unclamped. -/
theorem c9_open_interval (log : List LogEntry) (e lastE : LogEntry)
    (now : DateTime) (r : Nat) (d : Int) :
    (isOpenKind e.type = true →
      lookupKey (calculateLogsDuration (log ++ [e]) r) d =
        lookupKey (calculateLogsDuration log r) d) ∧
    (log.getLast? = some lastE → WFt lastE.timestamp → WFt now → r ≤ 23 →
      dayKey lastE.timestamp r < dayKey now r →
      notifyTodayMs log .working now r =
        lookupKey (calculateLogsDuration log r) (dayKey now r) +
          (toMs now - (dayKey now r * 86400000 + (r : Int) * 3600000))) ∧
    (log.getLast? = some lastE → WFt lastE.timestamp → WFt now → r ≤ 23 →
      dayKey lastE.timestamp r = dayKey now r →
      toMs lastE.timestamp < toMs now →
      notifyTodayMs log .working now r =
        lookupKey (calculateLogsDuration log r) (dayKey now r) +
          (toMs now - toMs lastE.timestamp)) := by
  refine ⟨fun hopen => ?_, fun hlast hwL hwn hr23 hlt => ?_,
    fun hlast hwL hwn hr23 heq hlt => ?_⟩
  · unfold calculateLogsDuration
    rw [scan_lookup, scan_lookup, openPairs_append_open hopen]
  · rw [notify_formula log lastE now r hlast]
    have h1 : toMs lastE.timestamp ≤
        dayKey now r * 86400000 + (r : Int) * 3600000 := by
      simp only [dayKey_def] at hlt ⊢
      unfold toMs
      unfold WFt at hwL hwn
      split_ifs at hlt ⊢ <;> omega
    have h2 : dayKey now r * 86400000 + (r : Int) * 3600000 ≤ toMs now := by
      simp only [dayKey_def]
      unfold toMs
      unfold WFt at hwn
      split_ifs <;> omega
    rw [max_eq_right h1, max_eq_right (by omega :
      (0 : Int) ≤ toMs now - (dayKey now r * 86400000 + (r : Int) * 3600000))]
  · rw [notify_formula log lastE now r hlast]
    have h1 : dayKey now r * 86400000 + (r : Int) * 3600000 ≤
        toMs lastE.timestamp := by
      simp only [dayKey_def] at heq ⊢
      unfold toMs
      unfold WFt at hwL hwn
      split_ifs at heq ⊢ <;> omega
    rw [max_eq_left h1, max_eq_right (by omega :
      (0 : Int) ≤ toMs now - toMs lastE.timestamp)]

/-- Witness for C9: an unmatched `work_start` at 10:00 of day 0 leaves day
0's total at 0 (part a), and for an overnight open session started 23:00 of
day 0, `/notify` at 06:00 of day 1 (`resetHour = 5`) credits exactly one
clamped hour (part b); a session started 09:00 of day 0 queried at 10:00
the same day credits the unclamped hour (part c). -/
theorem c9_open_interval_witness :
    lookupKey (calculateLogsDuration ([] ++ [⟨.work_start, ⟨0, 36000000⟩⟩]) 5) 0 =
      lookupKey (calculateLogsDuration [] 5) 0 ∧
    notifyTodayMs [⟨.work_start, ⟨0, 82800000⟩⟩] .working ⟨1, 21600000⟩ 5 =
      lookupKey (calculateLogsDuration [⟨.work_start, ⟨0, 82800000⟩⟩] 5)
        (dayKey (⟨1, 21600000⟩ : DateTime) 5) +
        (toMs ⟨1, 21600000⟩ - ((dayKey (⟨1, 21600000⟩ : DateTime) 5) * 86400000 +
          (5 : Int) * 3600000)) ∧
    notifyTodayMs [⟨.work_start, ⟨0, 32400000⟩⟩] .working ⟨0, 36000000⟩ 5 =
      lookupKey (calculateLogsDuration [⟨.work_start, ⟨0, 32400000⟩⟩] 5)
        (dayKey (⟨0, 36000000⟩ : DateTime) 5) +
        (toMs ⟨0, 36000000⟩ - toMs (⟨0, 32400000⟩ : DateTime)) :=
  ⟨(c9_open_interval [] ⟨.work_start, ⟨0, 36000000⟩⟩ ⟨.work_start, ⟨0, 36000000⟩⟩
      ⟨0, 36000000⟩ 5 0).1 (by decide),
   (c9_open_interval [⟨.work_start, ⟨0, 82800000⟩⟩] ⟨.work_start, ⟨0, 82800000⟩⟩
      ⟨.work_start, ⟨0, 82800000⟩⟩ ⟨1, 21600000⟩ 5 0).2.1 (by decide) (by decide)
      (by decide) (by decide) (by decide),
   (c9_open_interval [⟨.work_start, ⟨0, 32400000⟩⟩] ⟨.work_start, ⟨0, 32400000⟩⟩
      ⟨.work_start, ⟨0, 32400000⟩⟩ ⟨0, 36000000⟩ 5 0).2.2 (by decide) (by decide)
      (by decide) (by decide) (by decide) (by decide)⟩

end Kintai
